import Mathlib

/-!
Verification of the contest-encryption core of an ElectionGuard
implementation: the `HValue` hash value type with its canonical textual
encoding (`hash.rs`), the ElectionGuard `H` function, and the
`ContestEncrypted` operations (`contest_encrypted.rs`): homomorphic
combination of ciphertexts and nonces, verification, scaling and
construction.

Machine bytes (`u8`) are modelled as `Nat` values together with the
invariant `< 256` where it matters; `u8 >> 4` is `b / 16`, `u8 & 0x0f` is
`b % 16`, and `(acc << 4) | nibble` with `acc, nibble < 16` is
`acc * 16 + nibble`.  Rust panics (out-of-bounds indexing, `.unwrap()`)
are modelled by an `Option` result, `none` meaning the call panics.
-/

namespace ElectionGuard

/-! ## HValue (`hash.rs`) -/

/-- `HValue`: a hash value, wrapping the 32-byte array `[u8; 32]`.
Bytes are `Nat`s; well-formedness (`HValue.wf`) records the `u8` range. -/
structure HValue where
  bytes : List Nat
  deriving DecidableEq

/-- The `[u8; 32]` representation invariant of `HValue`. -/
def HValue.wf (h : HValue) : Prop :=
  h.bytes.length = 32 ∧ ∀ b ∈ h.bytes, b < 256

instance (h : HValue) : Decidable h.wf := by
  unfold HValue.wf
  infer_instance

/-- `HValue::default()` (`derive(Default)`): the all-zero 32-byte value. -/
def HValue.default : HValue :=
  ⟨List.replicate 32 0⟩

/-- `HVALUE_SERIALIZE_PREFIX = b"H("` as ASCII codes. -/
def hvSerPre : List Nat := [72, 40]

/-- `HVALUE_SERIALIZE_SUFFIX = b")"` as ASCII codes. -/
def hvSerSuf : List Nat := [41]

/-- `HVALUE_SERIALIZE_LEN = 2 + 32*2 + 1 = 67`. -/
def hvSerLen : Nat := 67

/-- `b"0123456789ABCDEF"[nibble]`: ASCII code of an uppercase hex digit. -/
def nibbleToHexUpper (n : Nat) : Nat :=
  if n < 10 then 48 + n else 55 + n

/-- One byte to its two uppercase hex digit codes, high nibble
(`self.0[ix] >> 4`) first, then low nibble (`self.0[ix] & 0x0f`). -/
def byteToHexUpper (b : Nat) : List Nat :=
  [nibbleToHexUpper (b / 16), nibbleToHexUpper (b % 16)]

/-- `HValue::display_as_ascii`: the state machine emits the serialize
prefix `"H("`, then for each byte its upper and lower nibble as uppercase
hex, then the suffix `")"`. -/
def HValue.display_as_ascii (h : HValue) : List Nat :=
  hvSerPre ++ h.bytes.flatMap byteToHexUpper ++ hvSerSuf

/-- `hex_digit_to_nibble` from `HValue::from_str`:
`b'0'..=b'9'`, `b'a'..=b'f'`, `b'A'..=b'F'`, otherwise `None`. -/
def hex_digit_to_nibble (d : Nat) : Option Nat :=
  if 48 ≤ d ∧ d ≤ 57 then some (d - 48)
  else if 97 ≤ d ∧ d ≤ 102 then some (d - 97 + 10)
  else if 65 ≤ d ∧ d ≤ 70 then some (d - 65 + 10)
  else none

/-- `hex_digit_to_nibble(*hex_digit).unwrap_or_else(|| { bad_digit = true; 0 })`:
the nibble (or `0`) together with the `bad_digit` flag contribution. -/
def nibbleOrZero (d : Nat) : Nat × Bool :=
  match hex_digit_to_nibble d with
  | some n => (n, false)
  | none => (0, true)

/-- The `byte_iterator` of `HValue::from_str`: `chunks_exact(2)` over the
hex digits, each pair folded into a byte `(hi << 4) | lo`; an incomplete
trailing chunk is dropped.  Returns the bytes and the `bad_digit` flag. -/
def hexPairsToBytes : List Nat → List Nat × Bool
  | hi :: lo :: rest =>
    let ph := nibbleOrZero hi
    let pl := nibbleOrZero lo
    let pr := hexPairsToBytes rest
    ((ph.1 * 16 + pl.1) :: pr.1, ph.2 || pl.2 || pr.2)
  | _ => ([], false)

/-- `HValue::from_str` over the byte representation of the input string:
check total length 67, prefix `"H("` and suffix `")"`; decode the 64 hex
digits pairwise (`bad_digit` flag on a non-hex digit); take 32 bytes,
padding with `0` and setting `missing_digit` if the iterator runs dry;
error (`none`) if `bad_digit || missing_digit`. -/
def HValue.from_str (s : List Nat) : Option HValue :=
  if s.length = hvSerLen ∧ s.take 2 = hvSerPre ∧ s.drop 66 = hvSerSuf then
    let hex := (s.drop 2).take 64
    let br := hexPairsToBytes hex
    let hvba := br.1.take 32 ++ List.replicate (32 - br.1.length) 0
    if br.2 = true ∨ br.1.length < 32 then none else some ⟨hvba⟩
  else none

/-! ## The ElectionGuard `H` function (`eg_h` in `hash.rs`)

`eg_h(key, data)` is `HmacSha256 = Hmac<sha2::Sha256>` keyed with the 32
bytes of `key` and applied to `data`.  The `hmac`/`sha2` crates are
external to the sources at hand, so HMAC-SHA-256 itself is modelled from
the spec below (32-bit words as `Nat` with reduction mod `2^32`). -/

/-- Reduction of a `Nat` to a 32-bit word. -/
def w32 (n : Nat) : Nat := n % 4294967296

/-- Right rotation of a 32-bit word by `k` bits (valid for `n < 2^32`). -/
def rotr (k n : Nat) : Nat := n / 2 ^ k + n % 2 ^ k * 2 ^ (32 - k)

/-- Modelled from the spec: the SHA-256 `Ch` function (bitwise,
`¬x = 2^32 - 1 - x` on 32-bit words). -/
def shaCh (x y z : Nat) : Nat := (x &&& y) ^^^ ((4294967295 - x) &&& z)

/-- Modelled from the spec: the SHA-256 `Maj` function. -/
def shaMaj (x y z : Nat) : Nat := (x &&& y) ^^^ (x &&& z) ^^^ (y &&& z)

/-- SHA-256 `Σ₀`. -/
def bigS0 (x : Nat) : Nat := rotr 2 x ^^^ rotr 13 x ^^^ rotr 22 x

/-- SHA-256 `Σ₁`. -/
def bigS1 (x : Nat) : Nat := rotr 6 x ^^^ rotr 11 x ^^^ rotr 25 x

/-- SHA-256 `σ₀`. -/
def smallS0 (x : Nat) : Nat := rotr 7 x ^^^ rotr 18 x ^^^ x / 2 ^ 3

/-- SHA-256 `σ₁`. -/
def smallS1 (x : Nat) : Nat := rotr 17 x ^^^ rotr 19 x ^^^ x / 2 ^ 10

/-- The 64 SHA-256 round constants, written in decimal. -/
def K256 : List Nat :=
  [1116352408, 1899447441, 3049323471, 3921009573, 961987163,
   1508970993, 2453635748, 2870763221, 3624381080, 310598401,
   607225278, 1426881987, 1925078388, 2162078206, 2614888103,
   3248222580, 3835390401, 4022224774, 264347078, 604807628,
   770255983, 1249150122, 1555081692, 1996064986, 2554220882,
   2821834349, 2952996808, 3210313671, 3336571891, 3584528711,
   113926993, 338241895, 666307205, 773529912, 1294757372,
   1396182291, 1695183700, 1986661051, 2177026350, 2456956037,
   2730485921, 2820302411, 3259730800, 3345764771, 3516065817,
   3600352804, 4094571909, 275423344, 430227734, 506948616,
   659060556, 883997877, 958139571, 1322822218, 1537002063,
   1747873779, 1955562222, 2024104815, 2227730452, 2361852424,
   2428436474, 2756734187, 3204031479, 3329325298]

/-- The eight 32-bit working variables of SHA-256. -/
structure Sha256State where
  a : Nat
  b : Nat
  c : Nat
  d : Nat
  e : Nat
  f : Nat
  g : Nat
  h : Nat
  deriving DecidableEq

/-- The SHA-256 initial hash value, written in decimal. -/
def sha256Init : Sha256State :=
  ⟨1779033703, 3144134277, 1013904242, 2773480762,
   1359893119, 2600822924, 528734635, 1541459225⟩

/-- One step of the SHA-256 message schedule on the reversed word list
(most recent word first): prepends
`σ₁(w[t-2]) + w[t-7] + σ₀(w[t-15]) + w[t-16]`. -/
def schedStep (rw : List Nat) : List Nat :=
  w32 (smallS1 (rw.getD 1 0) + rw.getD 6 0 + smallS0 (rw.getD 14 0) + rw.getD 15 0) :: rw

/-- Iterate `schedStep`. -/
def schedExtend : Nat → List Nat → List Nat
  | 0, rw => rw
  | n + 1, rw => schedExtend n (schedStep rw)

/-- The 64-entry SHA-256 message schedule of a 16-word block. -/
def schedule (block : List Nat) : List Nat :=
  (schedExtend 48 block.reverse).reverse

/-- One SHA-256 compression round with round constant `k` and schedule
word `w`. -/
def roundStep (k w : Nat) (s : Sha256State) : Sha256State :=
  let t1 := w32 (s.h + bigS1 s.e + shaCh s.e s.f s.g + k + w)
  let t2 := w32 (bigS0 s.a + shaMaj s.a s.b s.c)
  ⟨w32 (t1 + t2), s.a, s.b, s.c, w32 (s.d + t1), s.e, s.f, s.g⟩

/-- The 64 compression rounds, driven by the constants and the schedule. -/
def rounds : List Nat → List Nat → Sha256State → Sha256State
  | k :: ks, w :: ws, s => rounds ks ws (roundStep k w s)
  | _, _, s => s

/-- SHA-256 compression of one 16-word block into the chaining state. -/
def compressBlock (s : Sha256State) (block : List Nat) : Sha256State :=
  let t := rounds K256 (schedule block) s
  ⟨w32 (s.a + t.a), w32 (s.b + t.b), w32 (s.c + t.c), w32 (s.d + t.d),
   w32 (s.e + t.e), w32 (s.f + t.f), w32 (s.g + t.g), w32 (s.h + t.h)⟩

/-- A `Nat` as 8 big-endian bytes. -/
def be64 (n : Nat) : List Nat :=
  [n / 2 ^ 56 % 256, n / 2 ^ 48 % 256, n / 2 ^ 40 % 256, n / 2 ^ 32 % 256,
   n / 2 ^ 24 % 256, n / 2 ^ 16 % 256, n / 2 ^ 8 % 256, n % 256]

/-- SHA-256 padding: a `0x80` byte, zeros to 56 mod 64, and the bit
length as 8 big-endian bytes. -/
def padMessage (msg : List Nat) : List Nat :=
  msg ++ 128 :: (List.replicate ((119 - msg.length % 64) % 64) 0 ++ be64 (8 * msg.length))

/-- Split a byte list into chunks of `n` bytes (fuel-driven). -/
def chunksAux (n : Nat) : Nat → List Nat → List (List Nat)
  | _, [] => []
  | 0, _ => []
  | fuel + 1, x :: xs => (x :: xs).take n :: chunksAux n fuel ((x :: xs).drop n)

/-- Split a byte list into chunks of `n` bytes. -/
def chunks (n : Nat) (l : List Nat) : List (List Nat) :=
  chunksAux n l.length l

/-- A 64-byte block as 16 big-endian 32-bit words. -/
def wordsOfBlock (block : List Nat) : List Nat :=
  (chunks 4 block).map (List.foldl (fun a b => a * 256 + b) 0)

/-- The final state as 32 big-endian bytes. -/
def bytesOfState (s : Sha256State) : List Nat :=
  [s.a, s.b, s.c, s.d, s.e, s.f, s.g, s.h].flatMap
    (fun w => [w / 2 ^ 24 % 256, w / 2 ^ 16 % 256, w / 2 ^ 8 % 256, w % 256])

/-- Modelled from the spec: SHA-256 of a byte list (from the `sha2`
crate, external to the sources at hand). -/
def sha256 (msg : List Nat) : List Nat :=
  bytesOfState ((chunks 64 (padMessage msg)).foldl
    (fun s b => compressBlock s (wordsOfBlock b)) sha256Init)

/-- Modelled from the spec: HMAC-SHA-256 (the `hmac` crate, external to
the sources at hand); the key — here always 32 bytes — is zero-padded to
the 64-byte block size, then the usual ipad/opad construction applies. -/
def hmacSha256 (key msg : List Nat) : List Nat :=
  let k0 := key ++ List.replicate (64 - key.length) 0
  sha256 (k0.map (fun b => b ^^^ 92) ++ sha256 (k0.map (fun b => b ^^^ 54) ++ msg))

/-- `eg_h` (`hash.rs`): the ElectionGuard `H` function, HMAC-SHA-256 with
the 32 bytes of `key` as the HMAC key and `data` as the message. -/
def eg_h (key : HValue) (data : List Nat) : HValue :=
  ⟨hmacSha256 key.bytes data⟩

/-! ## Contest encryption (`contest_encrypted.rs`)

The contest layer manipulates a few types whose definitions live outside
the sources at hand (`joint_election_public_key.rs`, `index.rs`,
`vec1.rs`, `zk.rs`); they are modelled from the spec where named below.
The zero-knowledge proof algorithms themselves (`ProofRange::new`,
`ProofRange::verify`, `Ciphertext::verify_ballot_correctness`) are in
`zk.rs`, external to the sources at hand, so every contest-level
operation is parameterized over them. -/

/-- Modelled from the spec: the ElGamal `Ciphertext` pair `(alpha, beta)`
in `Z_p*` (`joint_election_public_key.rs`); the fields `alpha` and `beta`
are the ones the contest layer reads and writes. -/
structure Ciphertext where
  alpha : Nat
  beta : Nat
  deriving DecidableEq

/-- Modelled from the spec: a `Nonce` holds the scalar `xi` in `Z_q`
(`joint_election_public_key.rs`). -/
structure Nonce where
  xi : Nat
  deriving DecidableEq

/-- `FixedParameters` as used by the contest layer: the primes `p`
(group modulus) and `q` (exponent field modulus). -/
structure FixedParameters where
  p : Nat
  q : Nat
  deriving DecidableEq

/-- Modelled from the spec: `ProofRange` (`zk.rs`) is the disjunctive
NIZK proof object; its contents are opaque to the contest layer, so it
is modelled as an opaque token. -/
structure ProofRange where
  tag : Nat
  deriving DecidableEq

/-- `ContestEncrypted`: selection ciphertexts, contest hash, one
ballot-correctness proof per option (`Vec1<ProofRange>`, modelled as a
list indexed 1-based through `vec1Get`), and the selection-limit proof. -/
structure ContestEncrypted where
  selection : List Ciphertext
  contest_hash : HValue
  proof_ballot_correctness : List ProofRange
  proof_selection_limit : ProofRange
  deriving DecidableEq

/-- `ScaledContestEncrypted`: only the scaled selection vector, no
proofs and no hash. -/
structure ScaledContestEncrypted where
  selection : List Ciphertext
  deriving DecidableEq

/-- Modelled from the spec: `Index::from_one_based_index` (`index.rs`)
succeeds exactly on `1..=indexMax`, where `indexMax` is the maximum
representable 1-based index of the index type. -/
def from_one_based_index (indexMax j : Nat) : Option Nat :=
  if 1 ≤ j ∧ j ≤ indexMax then some j else none

/-- Modelled from the spec: `Vec1::get` (`vec1.rs`) looks up a 1-based
index, `none` when out of range. -/
def vec1Get (l : List ProofRange) (j : Nat) : Option ProofRange :=
  l[j - 1]?

/-- Modelled from the spec: `Vec1::try_push` (`vec1.rs`) appends unless
the vector already holds the maximum representable index many elements. -/
def vec1TryPush (indexMax : Nat) (l : List ProofRange) (x : ProofRange) :
    Option (List ProofRange) :=
  if l.length + 1 ≤ indexMax then some (l ++ [x]) else none

/-- `ContestEncrypted::sum_selection_vector`: starts from `selection[0]`
(a panic — `none` — on an empty slice) and multiplies the `alpha`s and
`beta`s of the remaining elements in, mod `p`. -/
def sum_selection_vector (fp : FixedParameters) :
    List Ciphertext → Option Ciphertext
  | [] => none
  | ct :: rest =>
    some (rest.foldl
      (fun acc sel => ⟨acc.alpha * sel.alpha % fp.p, acc.beta * sel.beta % fp.p⟩) ct)

/-- `ContestEncrypted::sum_selection_nonce_vector`: as
`sum_selection_vector`, also summing the nonces' `xi` mod `q`;
`selection_with_nonces[0]` panics (`none`) on an empty slice. -/
def sum_selection_nonce_vector (fp : FixedParameters) :
    List (Ciphertext × Nonce) → Option (Ciphertext × Nonce)
  | [] => none
  | (ct, n) :: rest =>
    some (rest.foldl
      (fun acc x =>
        (⟨acc.1.alpha * x.1.alpha % fp.p, acc.1.beta * x.1.beta % fp.p⟩,
         ⟨(acc.2.xi + x.2.xi) % fp.q⟩))
      (ct, n))

/-- The per-option loop of `ContestEncrypted::verify`: for each
ciphertext at 1-based position `j`, construct the option index (early
`false` on failure), look the proof up in the `Vec1` (early `false` on a
missing proof), and check ballot correctness with the external verifier
`bcVerify` (early `false` on a failed check). -/
def verifyLoop (indexMax : Nat) (bcVerify : Ciphertext → ProofRange → Bool)
    (proofs : List ProofRange) : List Ciphertext → Nat → Bool
  | [], _ => true
  | ct :: rest, j =>
    match from_one_based_index indexMax j with
    | none => false
    | some idx =>
      match vec1Get proofs idx with
      | none => false
      | some proof =>
        if bcVerify ct proof then verifyLoop indexMax bcVerify proofs rest (j + 1)
        else false

/-- `ContestEncrypted::verify_selection_limit`: combine the selection
ciphertexts (panicking — `none` — on an empty selection) and run the
external `ProofRange::verify` (`rpVerify`, from `zk.rs`) on the combined
ciphertext and the selection limit. -/
def verify_selection_limit (fp : FixedParameters)
    (rpVerify : ProofRange → Ciphertext → Nat → Bool)
    (ce : ContestEncrypted) (selection_limit : Nat) : Option Bool :=
  match sum_selection_vector fp ce.selection with
  | none => none
  | some combined => some (rpVerify ce.proof_selection_limit combined selection_limit)

/-- `ContestEncrypted::verify`: the per-option loop starting at `j = 1`,
then the selection-limit check.  `none` models a panic. -/
def ContestEncrypted.verify (fp : FixedParameters) (indexMax : Nat)
    (bcVerify : Ciphertext → ProofRange → Bool)
    (rpVerify : ProofRange → Ciphertext → Nat → Bool)
    (ce : ContestEncrypted) (selection_limit : Nat) : Option Bool :=
  if verifyLoop indexMax bcVerify ce.proof_ballot_correctness ce.selection 1 then
    verify_selection_limit fp rpVerify ce selection_limit
  else some false

/-- Modelled from the spec: `Ciphertext::scale`
(`joint_election_public_key.rs`) raises `alpha` and `beta` to `factor`
mod `p`. -/
def Ciphertext.scale (fp : FixedParameters) (factor : Nat) (ct : Ciphertext) :
    Ciphertext :=
  ⟨ct.alpha ^ factor % fp.p, ct.beta ^ factor % fp.p⟩

/-- `ContestEncrypted::scale`: scales every selection ciphertext by the
same factor and returns a `ScaledContestEncrypted`. -/
def ContestEncrypted.scale (ce : ContestEncrypted) (fp : FixedParameters)
    (factor : Nat) : ScaledContestEncrypted :=
  ⟨ce.selection.map (Ciphertext.scale fp factor)⟩

/-! ## `ContestEncrypted::new` and its helpers

`ContestEncrypted::new` drives external collaborators that are not in
the sources at hand: nonce derivation (`nonce.rs`), `encrypt_with` on
the public key (`joint_election_public_key.rs`), the contest hash
(`contest_hash.rs`) and the two proof constructors (`zk.rs`, fed by the
csprng).  They enter as function parameters `nonceF`, `encryptF`,
`hashF`, `bcProveF` and `rpProveF`; the header, primary nonce, contest
index and csprng they close over are fixed throughout one call. -/

/-- The loop of `ContestEncrypted::encrypt_selection`: for each plaintext
entry at 1-based position `j`, `ContestOptionIndex::from_one_based_index(j)
.unwrap()` (a panic — `none` — on failure), derive the option nonce, and
encrypt the entry with it, collecting `(Ciphertext, Nonce)` pairs.  Note
the TODO in the source: the selection limit is not checked here. -/
def encryptLoop (indexMax : Nat) (nonceF : Nat → Nat)
    (encryptF : Nat → Nat → Ciphertext) :
    List Nat → Nat → Option (List (Ciphertext × Nonce))
  | [], _ => some []
  | v :: rest, j =>
    match from_one_based_index indexMax j with
    | none => none
    | some oIdx =>
      match encryptLoop indexMax nonceF encryptF rest (j + 1) with
      | none => none
      | some tail => some ((encryptF (nonceF oIdx) v, ⟨nonceF oIdx⟩) :: tail)

/-- `ContestEncrypted::encrypt_selection`. -/
def encrypt_selection (indexMax : Nat) (nonceF : Nat → Nat)
    (encryptF : Nat → Nat → Ciphertext) (vote : List Nat) :
    Option (List (Ciphertext × Nonce)) :=
  encryptLoop indexMax nonceF encryptF vote 1

/-- The proof-building loop of `ContestEncrypted::new`: for each
`(ciphertext, nonce)` pair at 0-based position `i`, build the ballot
correctness proof for the plaintext bit `vote[i] == 1` and
`try_push(..).unwrap()` it onto the `Vec1` (a panic — `none` — when the
push fails). -/
def buildProofs (indexMax : Nat) (bcProveF : Ciphertext → Bool → Nonce → ProofRange)
    (vote : List Nat) :
    List (Ciphertext × Nonce) → Nat → List ProofRange → Option (List ProofRange)
  | [], _, acc => some acc
  | (sel, n) :: rest, i, acc =>
    match vec1TryPush indexMax acc (bcProveF sel (vote.getD i 0 == 1) n) with
    | none => none
    | some acc' => buildProofs indexMax bcProveF vote rest (i + 1) acc'

/-- `ContestEncrypted::proof_selection_limit` (the associated function;
named apart here because the Lean structure projection of the field of
the same name already exists): combine the ciphertexts and nonces
(`selection[0]` panics — `none` — on an empty selection) and run the
external `ProofRange::new` (`rpProveF`). -/
def proof_selection_limit_fn (fp : FixedParameters)
    (rpProveF : Ciphertext → Nonce → Nat → Nat → ProofRange)
    (selection : List (Ciphertext × Nonce))
    (num_selections selection_limit : Nat) : Option ProofRange :=
  match sum_selection_nonce_vector fp selection with
  | none => none
  | some (cct, cn) => some (rpProveF cct cn num_selections selection_limit)

/-- `ContestEncrypted::new`: encrypt the selection, hash the ciphertext
vector, build the per-option proofs, count `num_selections` as the sum
of the plaintext entries, build the selection-limit proof, and assemble.
Of the `contest: &Contest` argument only `contest.selection_limit` is
ever read; the contest's option count is not consulted, and neither
`vote.length` nor `num_selections` is validated anywhere. -/
def ContestEncrypted.new (fp : FixedParameters) (indexMax : Nat)
    (nonceF : Nat → Nat) (encryptF : Nat → Nat → Ciphertext)
    (hashF : List Ciphertext → HValue)
    (bcProveF : Ciphertext → Bool → Nonce → ProofRange)
    (rpProveF : Ciphertext → Nonce → Nat → Nat → ProofRange)
    (selection_limit : Nat) (vote : List Nat) : Option ContestEncrypted :=
  match encrypt_selection indexMax nonceF encryptF vote with
  | none => none
  | some selection_and_nonce =>
    let selection := selection_and_nonce.map Prod.fst
    let contest_hash := hashF selection
    match buildProofs indexMax bcProveF vote selection_and_nonce 0 [] with
    | none => none
    | some proofs =>
      let num_selections := vote.foldl (· + ·) 0
      match proof_selection_limit_fn fp rpProveF selection_and_nonce
          num_selections selection_limit with
      | none => none
      | some psl => some ⟨selection, contest_hash, proofs, psl⟩

/-! ## Loop lemmas for `ContestEncrypted::verify` -/

/-- If the positions `j, j+1, ...` reach past `indexMax` (and `j` itself
is still representable or one past), the per-option loop returns `false`:
at the latest, index construction fails at position `indexMax + 1`. -/
theorem verifyLoop_false_of_index_overflow (indexMax : Nat)
    (bc : Ciphertext → ProofRange → Bool) (proofs : List ProofRange) :
    ∀ (cts : List Ciphertext) (j : Nat),
      indexMax + 2 ≤ j + cts.length → j ≤ indexMax + 1 →
      verifyLoop indexMax bc proofs cts j = false
  | [], j, h1, h2 => absurd h1 (by simp; omega)
  | ct :: rest, j, h1, h2 => by
    simp only [verifyLoop]
    by_cases hj : 1 ≤ j ∧ j ≤ indexMax
    · simp only [from_one_based_index, if_pos hj]
      cases hget : vec1Get proofs j with
      | none => rfl
      | some proof =>
        by_cases hbc : bc ct proof
        · simpa [hbc] using verifyLoop_false_of_index_overflow indexMax bc proofs rest (j + 1)
            (by simp at h1 ⊢; omega) (by omega)
        · simp [hbc]
    · simp [from_one_based_index, hj]

/-- If there are fewer proofs than remaining positions demand, the
per-option loop returns `false`: at the latest, the `Vec1` lookup fails
at position `proofs.length + 1`. -/
theorem verifyLoop_false_of_missing_proof (indexMax : Nat)
    (bc : Ciphertext → ProofRange → Bool) (proofs : List ProofRange) :
    ∀ (cts : List Ciphertext) (j : Nat),
      proofs.length + 2 ≤ j + cts.length → j ≤ proofs.length + 1 →
      verifyLoop indexMax bc proofs cts j = false
  | [], j, h1, h2 => absurd h1 (by simp; omega)
  | ct :: rest, j, h1, h2 => by
    simp only [verifyLoop]
    by_cases hj : 1 ≤ j ∧ j ≤ indexMax
    · simp only [from_one_based_index, if_pos hj]
      by_cases hlast : j = proofs.length + 1
      · have : vec1Get proofs j = none := by
          simp [vec1Get, hlast]
        simp [this]
      · cases hget : vec1Get proofs j with
        | none => rfl
        | some proof =>
          by_cases hbc : bc ct proof
          · simpa [hbc] using verifyLoop_false_of_missing_proof indexMax bc proofs rest (j + 1)
              (by simp at h1 ⊢; omega) (by omega)
          · simp [hbc]
    · simp [from_one_based_index, hj]

/-- Proofs appended beyond the positions the loop visits are never
looked at: the loop only reads 1-based indices up to
`proofs.length`, so appending to a sufficiently long proof list leaves
the loop's answer unchanged. -/
theorem verifyLoop_append_proofs (indexMax : Nat)
    (bc : Ciphertext → ProofRange → Bool) (proofs extra : List ProofRange) :
    ∀ (cts : List Ciphertext) (j : Nat), j + cts.length ≤ proofs.length + 1 →
      verifyLoop indexMax bc (proofs ++ extra) cts j = verifyLoop indexMax bc proofs cts j
  | [], j, h => rfl
  | ct :: rest, j, h => by
    simp only [verifyLoop]
    by_cases hj : 1 ≤ j ∧ j ≤ indexMax
    · simp only [from_one_based_index, if_pos hj]
      have hjlen : j - 1 < proofs.length := by simp at h; omega
      have : vec1Get (proofs ++ extra) j = vec1Get proofs j := by
        simp [vec1Get, List.getElem?_append, hjlen]
      rw [this]
      cases vec1Get proofs j with
      | none => rfl
      | some proof =>
        by_cases hbc : bc ct proof
        · simpa [hbc] using verifyLoop_append_proofs indexMax bc proofs extra rest (j + 1)
            (by simp at h ⊢; omega)
        · simp [hbc]
    · simp only [from_one_based_index, if_neg hj]

/-! ## Claim theorems -/

/-- C1: the claim says `ContestEncrypted::verify` returns a boolean and
never panics, for every value including one with an empty selection
vector.  The code violates this: with an empty selection the per-option
loop is vacuous and `verify_selection_limit` calls
`sum_selection_vector`, which indexes `selection[0]` into the empty
slice — an out-of-bounds panic, modelled as `none`. -/
theorem c1_verify_empty_selection_panics (fp : FixedParameters) (indexMax : Nat)
    (bcVerify : Ciphertext → ProofRange → Bool)
    (rpVerify : ProofRange → Ciphertext → Nat → Bool)
    (hv : HValue) (pr : ProofRange) (sl : Nat) :
    ContestEncrypted.verify fp indexMax bcVerify rpVerify ⟨[], hv, [], pr⟩ sl = none :=
  rfl

/-- C2: the claim says `ContestEncrypted::new` reports a plaintext
length mismatch and `num_selections > selection_limit` as distinct
failures and never proceeds to build proofs.  The code violates this:
with plaintext `[1, 1]` and `selection_limit = 1` (so `num_selections =
2 > 1`), construction succeeds and returns a fully assembled
`ContestEncrypted` with two ciphertexts and two ballot-correctness
proofs; the contest's option count is not even an input of the
computation, and the return type has no error case at all (the only
`none` is the index-overflow panic). -/
theorem c2_new_builds_proofs_despite_invalid_input :
    (ContestEncrypted.new ⟨7, 5⟩ 10 (fun j => j) (fun n v => ⟨n + 1, v + 1⟩)
        (fun _ => HValue.default) (fun _ _ _ => ⟨0⟩) (fun _ _ _ _ => ⟨1⟩) 1 [1, 1]).map
        (fun ce => (ce.selection.length, ce.proof_ballot_correctness.length)) = some (2, 2)
      ∧ List.foldl (· + ·) 0 [1, 1] = 2 ∧ 1 < 2 := by
  decide

/-- C3 (counterexample): the claim says any length mismatch between the
selection vector and the proof vector — extra proofs included — makes
`verify` return `false`.  With one ciphertext, two proofs, and the
external checkers accepting (as they do on well-formed proof material),
`verify` returns `true`: the second proof is never looked at. -/
theorem c3_extra_proofs_not_detected_cex :
    (⟨[⟨1, 1⟩], HValue.default, [⟨0⟩, ⟨0⟩], ⟨0⟩⟩ : ContestEncrypted).selection.length ≠
        (⟨[⟨1, 1⟩], HValue.default, [⟨0⟩, ⟨0⟩], ⟨0⟩⟩ :
          ContestEncrypted).proof_ballot_correctness.length
      ∧ ContestEncrypted.verify ⟨7, 5⟩ 10 (fun _ _ => true) (fun _ _ _ => true)
        ⟨[⟨1, 1⟩], HValue.default, [⟨0⟩, ⟨0⟩], ⟨0⟩⟩ 1 = some true := by
  decide

/-- C3 (amended): a proof vector shorter than the selection vector makes
`verify` return `false` (the `Vec1` lookup fails at the first uncovered
position at the latest); but proofs beyond the selection length are
simply ignored — appending extra proofs to a contest that already has at
least one proof per ciphertext never changes the verification result. -/
theorem c3_missing_proofs_fail_extra_proofs_ignored (fp : FixedParameters)
    (indexMax : Nat) (bcVerify : Ciphertext → ProofRange → Bool)
    (rpVerify : ProofRange → Ciphertext → Nat → Bool)
    (ce : ContestEncrypted) (extra : List ProofRange) (sl : Nat) :
    (ce.proof_ballot_correctness.length < ce.selection.length →
      ContestEncrypted.verify fp indexMax bcVerify rpVerify ce sl = some false)
    ∧ (ce.selection.length ≤ ce.proof_ballot_correctness.length →
      ContestEncrypted.verify fp indexMax bcVerify rpVerify
          ⟨ce.selection, ce.contest_hash, ce.proof_ballot_correctness ++ extra,
            ce.proof_selection_limit⟩ sl
        = ContestEncrypted.verify fp indexMax bcVerify rpVerify ce sl) := by
  constructor
  · intro hlt
    have hloop := verifyLoop_false_of_missing_proof indexMax bcVerify
      ce.proof_ballot_correctness ce.selection 1 (by omega) (by omega)
    simp [ContestEncrypted.verify, hloop]
  · intro hle
    have hloop := verifyLoop_append_proofs indexMax bcVerify
      ce.proof_ballot_correctness extra ce.selection 1 (by omega)
    simp [ContestEncrypted.verify, hloop, verify_selection_limit]

/-- C3 (witness for the amended claim): one ciphertext with no proof
fails verification; appending an extra proof to a contest with one
ciphertext and one proof leaves the result unchanged. -/
theorem c3_missing_proofs_fail_extra_proofs_ignored_witness :
    ContestEncrypted.verify ⟨7, 5⟩ 10 (fun _ _ => true) (fun _ _ _ => true)
        ⟨[⟨1, 1⟩], HValue.default, [], ⟨0⟩⟩ 1 = some false
      ∧ ContestEncrypted.verify ⟨7, 5⟩ 10 (fun _ _ => true) (fun _ _ _ => true)
          ⟨[⟨1, 1⟩], HValue.default, [⟨0⟩] ++ [⟨5⟩], ⟨0⟩⟩ 1
        = ContestEncrypted.verify ⟨7, 5⟩ 10 (fun _ _ => true) (fun _ _ _ => true)
          ⟨[⟨1, 1⟩], HValue.default, [⟨0⟩], ⟨0⟩⟩ 1 :=
  ⟨(c3_missing_proofs_fail_extra_proofs_ignored ⟨7, 5⟩ 10 (fun _ _ => true)
      (fun _ _ _ => true) ⟨[⟨1, 1⟩], HValue.default, [], ⟨0⟩⟩ [⟨5⟩] 1).1 (by decide),
   (c3_missing_proofs_fail_extra_proofs_ignored ⟨7, 5⟩ 10 (fun _ _ => true)
      (fun _ _ _ => true) ⟨[⟨1, 1⟩], HValue.default, [⟨0⟩], ⟨0⟩⟩ [⟨5⟩] 1).2 (by decide)⟩

/-- C10: a selection vector longer than the maximum representable
1-based option index makes `verify` return `false` — index construction
fails at position `indexMax + 1` at the latest, and every earlier exit
of the loop is also `false`; no panic and no skipping. -/
theorem c10_verify_false_beyond_index_max (fp : FixedParameters) (indexMax : Nat)
    (bcVerify : Ciphertext → ProofRange → Bool)
    (rpVerify : ProofRange → Ciphertext → Nat → Bool)
    (ce : ContestEncrypted) (sl : Nat)
    (hlong : indexMax < ce.selection.length) :
    ContestEncrypted.verify fp indexMax bcVerify rpVerify ce sl = some false := by
  have hloop := verifyLoop_false_of_index_overflow indexMax bcVerify
    ce.proof_ballot_correctness ce.selection 1 (by omega) (by omega)
  simp [ContestEncrypted.verify, hloop]

/-- C10 (witness): with `indexMax = 1`, a two-ciphertext contest fails
verification. -/
theorem c10_verify_false_beyond_index_max_witness :
    ContestEncrypted.verify ⟨7, 5⟩ 1 (fun _ _ => true) (fun _ _ _ => true)
      ⟨[⟨1, 1⟩, ⟨2, 2⟩], HValue.default, [⟨0⟩, ⟨0⟩], ⟨0⟩⟩ 1 = some false :=
  c10_verify_false_beyond_index_max ⟨7, 5⟩ 1 (fun _ _ => true) (fun _ _ _ => true)
    ⟨[⟨1, 1⟩, ⟨2, 2⟩], HValue.default, [⟨0⟩, ⟨0⟩], ⟨0⟩⟩ 1 (by decide)

/-- The accumulating multiply-mod loop of `sum_selection_vector`, on a
nonempty tail, lands on the fully reduced componentwise product. -/
theorem sumFold_eq (fp : FixedParameters) :
    ∀ (xs : List Ciphertext) (acc : Ciphertext), xs ≠ [] →
      xs.foldl (fun acc sel =>
          ⟨acc.alpha * sel.alpha % fp.p, acc.beta * sel.beta % fp.p⟩) acc =
        ⟨acc.alpha * (xs.map Ciphertext.alpha).prod % fp.p,
         acc.beta * (xs.map Ciphertext.beta).prod % fp.p⟩
  | [x], acc, _ => by simp
  | x :: y :: ys, acc, _ => by
    have ih := sumFold_eq fp (y :: ys)
      ⟨acc.alpha * x.alpha % fp.p, acc.beta * x.beta % fp.p⟩ (by simp)
    simp only [List.foldl_cons] at ih ⊢
    rw [ih]
    simp only [List.map_cons, List.prod_cons]
    rw [Nat.mod_mul_mod, Nat.mod_mul_mod, mul_assoc, mul_assoc]

/-- The accumulating loop of `sum_selection_nonce_vector`, on a nonempty
tail, lands on the reduced componentwise product and nonce sum. -/
theorem sumFoldPair_eq (fp : FixedParameters) :
    ∀ (xs : List (Ciphertext × Nonce)) (acc : Ciphertext × Nonce), xs ≠ [] →
      xs.foldl (fun acc x =>
          (⟨acc.1.alpha * x.1.alpha % fp.p, acc.1.beta * x.1.beta % fp.p⟩,
           ⟨(acc.2.xi + x.2.xi) % fp.q⟩)) acc =
        (⟨acc.1.alpha * (xs.map (fun x => x.1.alpha)).prod % fp.p,
          acc.1.beta * (xs.map (fun x => x.1.beta)).prod % fp.p⟩,
         ⟨(acc.2.xi + (xs.map (fun x => x.2.xi)).sum) % fp.q⟩)
  | [x], acc, _ => by simp
  | x :: y :: ys, acc, _ => by
    have ih := sumFoldPair_eq fp (y :: ys)
      (⟨acc.1.alpha * x.1.alpha % fp.p, acc.1.beta * x.1.beta % fp.p⟩,
       ⟨(acc.2.xi + x.2.xi) % fp.q⟩) (by simp)
    simp only [List.foldl_cons] at ih ⊢
    rw [ih]
    simp only [List.map_cons, List.prod_cons, List.sum_cons]
    rw [Nat.mod_mul_mod, Nat.mod_mul_mod, Nat.mod_add_mod, mul_assoc, mul_assoc,
      add_assoc]

/-- C4: on a nonempty list of ciphertexts whose components satisfy the
`Z_p*` data invariant, `sum_selection_vector` returns the ciphertext
whose `alpha` (resp. `beta`) is the product of all `alpha`s (resp.
`beta`s) mod `p`; on a nonempty list of pairs, `sum_selection_nonce_vector`
returns that combined ciphertext together with the nonce whose `xi` is
the sum of all `xi` mod `q`. -/
theorem c4_sum_selection_vectors (fp : FixedParameters)
    (l : List Ciphertext) (lp : List (Ciphertext × Nonce))
    (hl : l ≠ []) (hlp : lp ≠ [])
    (hb : ∀ ct ∈ l, ct.alpha < fp.p ∧ ct.beta < fp.p)
    (hbp : ∀ x ∈ lp, x.1.alpha < fp.p ∧ x.1.beta < fp.p ∧ x.2.xi < fp.q) :
    sum_selection_vector fp l =
      some ⟨(l.map Ciphertext.alpha).prod % fp.p, (l.map Ciphertext.beta).prod % fp.p⟩
    ∧ sum_selection_nonce_vector fp lp =
      some (⟨(lp.map (fun x => x.1.alpha)).prod % fp.p,
             (lp.map (fun x => x.1.beta)).prod % fp.p⟩,
            ⟨(lp.map (fun x => x.2.xi)).sum % fp.q⟩) := by
  constructor
  · match l, hl with
    | ct :: rest, _ =>
      match rest with
      | [] =>
        obtain ⟨ha, hb'⟩ := hb ct (by simp)
        simp [sum_selection_vector, Nat.mod_eq_of_lt ha, Nat.mod_eq_of_lt hb']
      | y :: ys =>
        simp only [sum_selection_vector, sumFold_eq fp (y :: ys) ct (by simp),
          List.map_cons, List.prod_cons]
  · match lp, hlp with
    | (ct, n) :: rest, _ =>
      match rest with
      | [] =>
        obtain ⟨ha, hb', hx⟩ := hbp (ct, n) (by simp)
        simp [sum_selection_nonce_vector, Nat.mod_eq_of_lt ha, Nat.mod_eq_of_lt hb',
          Nat.mod_eq_of_lt hx]
      | y :: ys =>
        simp only [sum_selection_nonce_vector, sumFoldPair_eq fp (y :: ys) (ct, n) (by simp),
          List.map_cons, List.prod_cons, List.sum_cons]

/-- Concrete ciphertext list for the C4 witness. -/
def c4List : List Ciphertext := [⟨2, 3⟩, ⟨4, 5⟩]

/-- Concrete ciphertext/nonce pair list for the C4 witness. -/
def c4PairList : List (Ciphertext × Nonce) := [(⟨2, 3⟩, ⟨1⟩), (⟨4, 5⟩, ⟨3⟩)]

/-- C4 (witness): concrete two-element instances with `p = 7`, `q = 5`. -/
theorem c4_sum_selection_vectors_witness :
    sum_selection_vector ⟨7, 5⟩ c4List =
      some ⟨(c4List.map Ciphertext.alpha).prod % 7,
            (c4List.map Ciphertext.beta).prod % 7⟩
    ∧ sum_selection_nonce_vector ⟨7, 5⟩ c4PairList =
      some (⟨(c4PairList.map (fun x => x.1.alpha)).prod % 7,
             (c4PairList.map (fun x => x.1.beta)).prod % 7⟩,
            ⟨(c4PairList.map (fun x => x.2.xi)).sum % 5⟩) :=
  c4_sum_selection_vectors ⟨7, 5⟩ c4List c4PairList
    (by decide) (by decide) (by decide) (by decide)

/-- C8: `ContestEncrypted::scale` keeps the length and order of the
selection vector, raises each ciphertext componentwise to `factor` mod
`p`, and lands in `ScaledContestEncrypted`, a type that consists of the
selection vector alone (no proof and no hash field exists on it). -/
theorem c8_scale_componentwise_no_proofs (fp : FixedParameters) (factor : Nat)
    (ce : ContestEncrypted) :
    (ce.scale fp factor).selection.length = ce.selection.length
    ∧ (∀ i : Nat, (ce.scale fp factor).selection[i]? =
        (ce.selection[i]?).map
          (fun ct => ⟨ct.alpha ^ factor % fp.p, ct.beta ^ factor % fp.p⟩))
    ∧ (∀ s : ScaledContestEncrypted, s = ⟨s.selection⟩) := by
  refine ⟨by simp [ContestEncrypted.scale], fun i => ?_, fun s => rfl⟩
  simp only [ContestEncrypted.scale, List.getElem?_map]
  cases ce.selection[i]? with
  | none => rfl
  | some ct => rfl

/-! ## Lemmas on the textual encoding of `HValue` -/

/-- Decoding inverts encoding on a single nibble. -/
theorem hexnib_of_nibble : ∀ n < 16, hex_digit_to_nibble (nibbleToHexUpper n) = some n := by
  decide

/-- Each byte contributes exactly two hex digits. -/
theorem flatMap_hex_length : ∀ bs : List Nat, (bs.flatMap byteToHexUpper).length = 2 * bs.length
  | [] => rfl
  | _ :: rest => by
    simp only [List.flatMap_cons, List.length_append, flatMap_hex_length rest, byteToHexUpper,
      List.length_cons, List.length_nil]
    omega

/-- Pairwise decoding inverts the hex encoding of a byte list of `u8`s,
with a clean `bad_digit` flag. -/
theorem hexPairs_flatMap : ∀ bs : List Nat, (∀ b ∈ bs, b < 256) →
    hexPairsToBytes (bs.flatMap byteToHexUpper) = (bs, false)
  | [], _ => rfl
  | b :: rest, hmem => by
    have hb : b < 256 := hmem b (by simp)
    have h1 : b / 16 < 16 := by omega
    have h2 : b % 16 < 16 := by omega
    have hrec := hexPairs_flatMap rest (fun x hx => hmem x (by simp [hx]))
    have hb16 : b / 16 * 16 + b % 16 = b := by omega
    have hflat : (b :: rest).flatMap byteToHexUpper
        = nibbleToHexUpper (b / 16) :: nibbleToHexUpper (b % 16) ::
            rest.flatMap byteToHexUpper := by
      simp [byteToHexUpper]
    rw [hflat]
    simp only [hexPairsToBytes, nibbleOrZero, hexnib_of_nibble _ h1,
      hexnib_of_nibble _ h2, hrec]
    simp [hb16]

/-- A non-hex digit anywhere in an even-length digit list raises the
`bad_digit` flag. -/
theorem hexPairs_flag_of_bad : ∀ l : List Nat, l.length % 2 = 0 →
    ∀ d ∈ l, hex_digit_to_nibble d = none → (hexPairsToBytes l).2 = true
  | [], _, _, hd, _ => absurd hd (by simp)
  | [x], hlen, _, _, _ => by simp at hlen
  | hi :: lo :: rest, hlen, d, hd, hnib => by
    have hlen' : rest.length % 2 = 0 := by simp at hlen; omega
    simp only [hexPairsToBytes, Bool.or_eq_true]
    rcases List.mem_cons.1 hd with rfl | hd'
    · left; left
      simp [nibbleOrZero, hnib]
    · rcases List.mem_cons.1 hd' with rfl | hd''
      · left; right
        simp [nibbleOrZero, hnib]
      · right
        exact hexPairs_flag_of_bad rest hlen' d hd'' hnib

/-- `lowerHexByte` maps the ASCII code of an uppercase hex letter
(`A`–`F`) to its lowercase counterpart and fixes every other byte. -/
def lowerHexByte (d : Nat) : Nat :=
  if 65 ≤ d ∧ d ≤ 70 then d + 32 else d

/-- Lowercasing does not change the decoded nibble. -/
theorem hexnib_lower (a b : Nat) (h : b = a ∨ b = lowerHexByte a) :
    hex_digit_to_nibble b = hex_digit_to_nibble a := by
  rcases h with rfl | rfl
  · rfl
  · unfold lowerHexByte hex_digit_to_nibble
    split_ifs <;> first | rfl | omega

/-- Bytes outside the uppercase hex letter range are fixed by
`lowerHexByte`. -/
theorem lowerHexByte_fix (a : Nat) (h : a < 65 ∨ 70 < a) : lowerHexByte a = a := by
  unfold lowerHexByte
  split_ifs with hc
  · omega
  · rfl

/-- Pairwise decoding only depends on the decoded nibbles. -/
theorem hexPairs_congr : ∀ l l' : List Nat,
    List.Forall₂ (fun b a => hex_digit_to_nibble b = hex_digit_to_nibble a) l' l →
    hexPairsToBytes l' = hexPairsToBytes l
  | [], l', h => by cases h; rfl
  | [x], l', h => by
    rcases h with _ | ⟨h1, h2⟩
    cases h2
    rfl
  | hi :: lo :: rest, l', h => by
    rcases h with _ | ⟨h1, h2⟩
    rcases h2 with _ | ⟨h3, h4⟩
    simp only [hexPairsToBytes, nibbleOrZero, h1, h3, hexPairs_congr rest _ h4]

/-- `from_str` succeeds once the frame is right and the digit area
decodes to the 32 bytes with a clean flag. -/
theorem from_str_of_parts (s : List Nat) (h : HValue) (hlen : h.bytes.length = 32)
    (hslen : s.length = 67) (htake : s.take 2 = [72, 40]) (hdrop : s.drop 66 = [41])
    (hpairs : hexPairsToBytes ((s.drop 2).take 64) = (h.bytes, false)) :
    HValue.from_str s = some h := by
  rw [HValue.from_str,
    if_pos ⟨by simpa [hvSerLen] using hslen, by simpa [hvSerPre] using htake,
      by simpa [hvSerSuf] using hdrop⟩]
  simp [hpairs, hlen, List.take_of_length_le (le_of_eq hlen)]

/-- C5: on a well-formed `HValue`, parsing the canonical display string
yields the value back, and the display string is exactly `"H("`, the 64
uppercase hex digits of the 32 bytes, and `")"`. -/
theorem c5_display_parse_roundtrip (h : HValue) (hwf : h.wf) :
    HValue.from_str h.display_as_ascii = some h
    ∧ h.display_as_ascii.length = 67
    ∧ h.display_as_ascii.take 2 = [72, 40]
    ∧ h.display_as_ascii.drop 66 = [41]
    ∧ ∀ c ∈ (h.display_as_ascii.drop 2).take 64,
        (48 ≤ c ∧ c ≤ 57) ∨ (65 ≤ c ∧ c ≤ 70) := by
  obtain ⟨hlen, hmem⟩ := hwf
  have hfm : (h.bytes.flatMap byteToHexUpper).length = 64 := by
    rw [flatMap_hex_length]; omega
  have hdisp : h.display_as_ascii
      = 72 :: 40 :: (h.bytes.flatMap byteToHexUpper ++ [41]) := by
    simp [HValue.display_as_ascii, hvSerPre, hvSerSuf]
  have htake : h.display_as_ascii.take 2 = [72, 40] := by rw [hdisp]; rfl
  have hlen67 : h.display_as_ascii.length = 67 := by
    rw [hdisp]; simp [hfm]
  have hdrop : h.display_as_ascii.drop 66 = [41] := by
    rw [hdisp]
    show (h.bytes.flatMap byteToHexUpper ++ [41]).drop 64 = [41]
    rw [← hfm, List.drop_left]
  have hhex : (h.display_as_ascii.drop 2).take 64 = h.bytes.flatMap byteToHexUpper := by
    rw [hdisp]
    show (h.bytes.flatMap byteToHexUpper ++ [41]).take 64 = _
    rw [← hfm, List.take_left]
  refine ⟨from_str_of_parts _ h hlen hlen67 htake hdrop ?_, hlen67, htake, hdrop, ?_⟩
  · rw [hhex]
    exact hexPairs_flatMap h.bytes hmem
  · rw [hhex]
    intro c hc
    rcases List.mem_flatMap.1 hc with ⟨b, hb, hcb⟩
    have hb256 := hmem b hb
    simp only [byteToHexUpper, List.mem_cons, List.not_mem_nil, or_false] at hcb
    rcases hcb with rfl | rfl <;> (unfold nibbleToHexUpper; split_ifs <;> omega)

/-- Concrete value for the C5 witness. -/
def c5Val : HValue := ⟨List.replicate 32 171⟩

/-- C5 (witness): the round trip and the display shape hold at the
concrete 32-byte value whose bytes are all `0xAB`. -/
theorem c5_display_parse_roundtrip_witness :
    HValue.wf c5Val
    ∧ (HValue.from_str c5Val.display_as_ascii = some c5Val
      ∧ c5Val.display_as_ascii.length = 67
      ∧ c5Val.display_as_ascii.take 2 = [72, 40]
      ∧ c5Val.display_as_ascii.drop 66 = [41]
      ∧ ∀ c ∈ (c5Val.display_as_ascii.drop 2).take 64,
          (48 ≤ c ∧ c ≤ 57) ∨ (65 ≤ c ∧ c ≤ 70)) :=
  ⟨by decide, c5_display_parse_roundtrip c5Val (by decide)⟩

/-- C6: a string of the wrong total length, or with a prefix other than
`"H("`, or a suffix other than `")"`, or a non-hex byte among the 64
digit positions, parses to an error (`none`), never to a substituted
value. -/
theorem c6_from_str_rejects_malformed (s : List Nat)
    (hbad : s.length ≠ 67 ∨ s.take 2 ≠ [72, 40] ∨ s.drop 66 ≠ [41]
      ∨ ∃ d ∈ (s.drop 2).take 64, hex_digit_to_nibble d = none) :
    HValue.from_str s = none := by
  rw [HValue.from_str]
  by_cases hok : s.length = hvSerLen ∧ s.take 2 = hvSerPre ∧ s.drop 66 = hvSerSuf
  · rw [if_pos hok]
    obtain ⟨h1, h2, h3⟩ := hok
    simp only [hvSerLen, hvSerPre, hvSerSuf] at h1 h2 h3
    have hbadd : ∃ d ∈ (s.drop 2).take 64, hex_digit_to_nibble d = none := by
      rcases hbad with hc | hc | hc | hc
      · exact absurd h1 hc
      · exact absurd h2 hc
      · exact absurd h3 hc
      · exact hc
    obtain ⟨d, hd, hnib⟩ := hbadd
    have hlenhex : ((s.drop 2).take 64).length % 2 = 0 := by
      simp [List.length_take, List.length_drop, h1]
    have hflag := hexPairs_flag_of_bad ((s.drop 2).take 64) hlenhex d hd hnib
    simp [hflag]
  · rw [if_neg hok]

/-- C6 (witness): a two-byte string (wrong length) fails, and a
67-byte string with the right frame but a `'G'` in the digit area
fails. -/
theorem c6_from_str_rejects_malformed_witness :
    HValue.from_str [72, 40] = none
    ∧ HValue.from_str ([72, 40] ++ 71 :: List.replicate 63 48 ++ [41]) = none :=
  ⟨c6_from_str_rejects_malformed [72, 40] (by decide),
   c6_from_str_rejects_malformed ([72, 40] ++ 71 :: List.replicate 63 48 ++ [41])
     (by decide)⟩

/-- C9: any string pointwise obtained from a well-formed value's
canonical display string by lowercasing hex digits (every byte equal to
the display byte or to its `lowerHexByte` image, which only moves
`A`–`F`) parses to the same value, although the display itself is
uppercase-only. -/
theorem c9_lowercase_hex_accepted (h : HValue) (hwf : h.wf) (s : List Nat)
    (hrel : List.Forall₂ (fun b a => b = a ∨ b = lowerHexByte a) s h.display_as_ascii) :
    HValue.from_str s = some h := by
  obtain ⟨hlen, hmem⟩ := hwf
  have hfm : (h.bytes.flatMap byteToHexUpper).length = 64 := by
    rw [flatMap_hex_length]; omega
  have hdisp : h.display_as_ascii
      = (hvSerPre ++ h.bytes.flatMap byteToHexUpper) ++ hvSerSuf := by
    simp [HValue.display_as_ascii]
  rw [hdisp] at hrel
  have hslen : s.length = 67 := by
    have hle := hrel.length_eq
    simp [hvSerPre, hvSerSuf, hfm] at hle
    omega
  have hl66 : (hvSerPre ++ h.bytes.flatMap byteToHexUpper).length = 66 := by
    simp [hvSerPre, hfm]
  have h1 := List.forall₂_take_append _ _ _ hrel
  have h2 := List.forall₂_drop_append _ _ _ hrel
  rw [hl66] at h1 h2
  have hdrop : s.drop 66 = [41] := by
    rcases List.forall₂_cons_right_iff.1 h2 with ⟨a, l', hab, hnil, heq⟩
    cases hnil
    have ha : a = 41 := by
      rcases hab with rfl | rfl
      · rfl
      · exact lowerHexByte_fix 41 (by omega)
    rw [heq, ha]
  have h11 := List.forall₂_take_append _ _ _ h1
  have h12 := List.forall₂_drop_append _ _ _ h1
  have hl2 : (hvSerPre : List Nat).length = 2 := rfl
  rw [hl2] at h11 h12
  have htake : s.take 2 = [72, 40] := by
    rw [List.take_take] at h11
    rcases List.forall₂_cons_right_iff.1 h11 with ⟨a, l', hab, htl, heq⟩
    rcases List.forall₂_cons_right_iff.1 htl with ⟨b, l'', hbb, hnil, heq'⟩
    cases hnil
    have ha : a = 72 := by
      rcases hab with rfl | rfl
      · rfl
      · exact lowerHexByte_fix 72 (by omega)
    have hb : b = 40 := by
      rcases hbb with rfl | rfl
      · rfl
      · exact lowerHexByte_fix 40 (by omega)
    simpa [ha, hb, heq'] using heq
  have hhex : List.Forall₂ (fun b a => hex_digit_to_nibble b = hex_digit_to_nibble a)
      ((s.drop 2).take 64) (h.bytes.flatMap byteToHexUpper) := by
    rw [List.drop_take] at h12
    exact (by simpa using h12 : List.Forall₂ _ ((s.drop 2).take 64) _).imp
      (fun x y hab => hexnib_lower y x hab)
  refine from_str_of_parts s h hlen hslen htake hdrop ?_
  rw [hexPairs_congr _ _ hhex]
  exact hexPairs_flatMap h.bytes hmem

/-- C9 (witness): lowercasing every byte of the display string of the
all-`0xAB` value (which lowercases exactly the hex letters) still parses
back to it. -/
theorem c9_lowercase_hex_accepted_witness :
    HValue.from_str (c5Val.display_as_ascii.map lowerHexByte) = some c5Val :=
  c9_lowercase_hex_accepted c5Val (by decide) _
    (List.forall₂_map_left_iff.2 (List.forall₂_same.2 (fun a _ => Or.inr rfl)))

/-- The 32 bytes of the published known-answer value
`H(B613679A0814D9EC772F95D778C35FC5FF1697C493715653C6C712144292C5AD)`. -/
def egKatBytes : List Nat :=
  [0xB6, 0x13, 0x67, 0x9A, 0x08, 0x14, 0xD9, 0xEC, 0x77, 0x2F, 0x95, 0xD7,
   0x78, 0xC3, 0x5F, 0xC5, 0xFF, 0x16, 0x97, 0xC4, 0x93, 0x71, 0x56, 0x53,
   0xC6, 0xC7, 0x12, 0x14, 0x42, 0x92, 0xC5, 0xAD]

set_option maxRecDepth 40000 in
/-- C7: `eg_h` on the all-zero default key and empty data produces
exactly the fixed known-answer value, whose canonical text form is
`"H(B613679A0814D9EC772F95D778C35FC5FF1697C493715653C6C712144292C5AD)"`
(and that text parses back to it); `eg_h` is a pure function of its two
arguments, so the value is the same on every invocation. -/
theorem c7_eg_h_known_answer :
    eg_h HValue.default [] = ⟨egKatBytes⟩
    ∧ HValue.display_as_ascii ⟨egKatBytes⟩ =
      "H(B613679A0814D9EC772F95D778C35FC5FF1697C493715653C6C712144292C5AD)".data.map
        Char.toNat
    ∧ HValue.from_str
        ("H(B613679A0814D9EC772F95D778C35FC5FF1697C493715653C6C712144292C5AD)".data.map
          Char.toNat) = some ⟨egKatBytes⟩ := by
  refine ⟨?_, by decide, by decide⟩
  decide

end ElectionGuard








